import Mathlib

/-!
Shallow embedding of the variable-substitution engine in
`src/packages/variable-resolver/src/browser/variable-resolver-service.ts`
(class `VariableResolverService` and its nested `Context`), together with
proofs of the specification claims about it.

Strings are modelled as `List Char` where character-level matching matters
(`VAR_REGEXP`), and as Lean `String` at the `Value` level. Promises are
modelled as `Except String`: a rejected promise is `Except.error`.
-/

namespace VarResolver

/-- Token names are character lists (JS strings). -/
abbrev Name := List Char

/-- JS line terminators: the characters the regex metacharacter `.` does not
match when the `s` flag is absent (as in `VAR_REGEXP`). -/
def isLineTerminator (c : Char) : Bool :=
  c = '\n' || c = '\r' || c = '\u2028' || c = '\u2029'

/-- A name the regex can capture: no closing brace and no line terminator. -/
def validName (n : Name) : Bool :=
  n.all (fun c => c != '\x7d' && !isLineTerminator c)

/-- The lazy part of `VAR_REGEXP`: starting after the two opening delimiter
characters, capture the shortest run of `.`-matchable characters followed by
a closing brace; fail at a line terminator or at the end of the input. -/
def grabName : List Char → Option (Name × List Char)
  | [] => none
  | c :: cs =>
    if c = '\x7d' then some ([], cs)
    else if isLineTerminator c then none
    else (grabName cs).map (fun p => (c :: p.1, p.2))

/-- Match `VAR_REGEXP` at the start of the character list, returning the
captured name and the characters after the match. -/
def matchTokenAt : List Char → Option (Name × List Char)
  | '$' :: '\x7b' :: cs => grabName cs
  | _ => none

/-- The full text of a token for a given name, delimiters included. -/
def tokenText (n : Name) : List Char :=
  '$' :: '\x7b' :: (n ++ ['\x7d'])

theorem grabName_length : ∀ cs n r, grabName cs = some (n, r) → r.length < cs.length := by
  intro cs
  induction cs with
  | nil => intro n r h; simp [grabName] at h
  | cons c cs ih =>
    intro n r h
    simp only [grabName] at h
    split at h
    · cases h; simp
    · split at h
      · cases h
      · cases hg : grabName cs with
        | none => rw [hg] at h; cases h
        | some p =>
          rw [hg] at h
          cases h
          have := ih p.1 p.2 (by rw [hg])
          simp
          omega

theorem matchTokenAt_length : ∀ l n r, matchTokenAt l = some (n, r) → r.length < l.length := by
  intro l n r h
  unfold matchTokenAt at h
  split at h
  · have := grabName_length _ _ _ h
    simp
    omega
  · cases h

/-- All capture groups found by a global, left-to-right, non-overlapping scan
of `VAR_REGEXP` over the string: the sequence of names the `exec` loop of
`resolveVariables` produces. -/
def scanTokens : List Char → List Name
  | [] => []
  | c :: cs =>
    match h : matchTokenAt (c :: cs) with
    | some p => p.1 :: scanTokens p.2
    | none => scanTokens cs
termination_by l => l.length
decreasing_by
  · exact matchTokenAt_length _ _ _ h
  · simp

/-- The single substitution pass of `doResolveString`: `value.replace` with
`VAR_REGEXP`, replacing each matched token by `g name` when that is present
and keeping the original matched text otherwise. -/
def substTokens (g : Name → Option Name) : List Char → List Char
  | [] => []
  | c :: cs =>
    match h : matchTokenAt (c :: cs) with
    | some p =>
      (match g p.1 with
       | some v => v
       | none => tokenText p.1) ++ substTokens g p.2
    | none => c :: substTokens g cs
termination_by l => l.length
decreasing_by
  · exact matchTokenAt_length _ _ _ h
  · simp

/-- Modelled from the spec: the external `VariableRegistry` collaborator
(its interface file `./variable` is not under `src/`). `getVariable(name)`
either rejects, or resolves to no variable, or yields a variable whose
`resolve()` either rejects or produces an optional string value. -/
inductive RegistryOutcome where
  | getVarThrows (msg : String)
  | noVariable
  | varResolveThrows (msg : String)
  | varValue (v : Option Name)

/-- A registry behaviour: what happens for each looked-up name. -/
abbrev Registry := Name → RegistryOutcome

/-- The try-block body of `Context.resolve`: `await getVariable(name)`
followed by `variable && await variable.resolve()`; `Except.error` models a
rejected promise escaping the block. -/
def tryLookup (reg : Registry) (n : Name) : Except String (Option Name) :=
  match reg n with
  | .getVarThrows m => .error m
  | .noVariable => .ok none
  | .varResolveThrows m => .error m
  | .varValue v => .ok v

/-- The value a first `Context.resolve` of a name stores in the cache:
the registry-determined value, with any failure degraded to absent. -/
def regValue (reg : Registry) (n : Name) : Option Name :=
  match tryLookup reg n with
  | .ok v => v
  | .error _ => none

/-- The per-call `Context` state: the `resolved` cache (a `Map` keyed by
name, holding string-or-absent), plus observation channels: the names passed
to `variableRegistry.getVariable` in order, and the `console.error` reports. -/
structure Ctx where
  resolved : List (Name × Option Name)
  lookups : List Name
  diagnostics : List (Name × String)
  deriving Repr, DecidableEq

/-- A fresh `Context`, as built at the start of every top-level `resolve`. -/
def Ctx.empty : Ctx := ⟨[], [], []⟩

/-- First binding of a key in the cache ( `Map.get` / `Map.has` share it). -/
def findEntry (n : Name) : List (Name × Option Name) → Option (Option Name)
  | [] => none
  | e :: rest => if e.1 = n then some e.2 else findEntry n rest

/-- `Context.get`: a missing entry and a cached absent value both come back
as `none` (JS `undefined`). -/
def Ctx.get (ctx : Ctx) (n : Name) : Option Name :=
  match findEntry n ctx.resolved with
  | some v => v
  | none => none

/-- `Map.has`, used for the early return in `Context.resolve`. -/
def Ctx.has (ctx : Ctx) (n : Name) : Bool :=
  (findEntry n ctx.resolved).isSome

/-- `Context.resolve`: return at once when the name is cached; otherwise run
the try-block, and on a rejection report it on the diagnostic channel and
cache the name as absent. The returned promise itself never rejects, hence
the result type is always built with `Except.ok`. -/
def Ctx.resolve (reg : Registry) (ctx : Ctx) (n : Name) : Except String Ctx :=
  if ctx.has n then .ok ctx
  else
    match tryLookup reg n with
    | .ok v => .ok ⟨ctx.resolved ++ [(n, v)], ctx.lookups ++ [n], ctx.diagnostics⟩
    | .error e =>
      .ok ⟨ctx.resolved ++ [(n, none)], ctx.lookups ++ [n], ctx.diagnostics ++ [(n, e)]⟩

/-- The `exec` loop of `resolveVariables`, after the scan itself has been
factored out: await `context.resolve` on each matched name in match order. -/
def resolveVariablesSeq (reg : Registry) : List Name → Ctx → Except String Ctx
  | [], ctx => .ok ctx
  | n :: ns, ctx => do
    let ctx2 ← Ctx.resolve reg ctx n
    resolveVariablesSeq reg ns ctx2

/-- `resolveVariables`: scan the string with `VAR_REGEXP` and ask the
`Context` to resolve every matched name. -/
def resolveVariables (reg : Registry) (s : String) (ctx : Ctx) : Except String Ctx :=
  resolveVariablesSeq reg (scanTokens s.data) ctx

/-- `doResolveString`: the scan phase followed by the single substitution
pass `value.replace(VAR_REGEXP, ...)` reading the populated cache. -/
def doResolveString (reg : Registry) (s : String) (ctx : Ctx) :
    Except String (String × Ctx) := do
  let ctx2 ← resolveVariables reg s ctx
  .ok (String.mk (substTokens (fun n => ctx2.get n) s.data), ctx2)

/-- The value tree `doResolve` dispatches on: `undefined`/`null`, strings,
arrays, plain objects (own enumerable string keys, in enumeration order),
class instances (own enumerable keys plus a class identity and internal
state that `Object.keys` does not see), and the remaining scalars. -/
inductive Value where
  | vundef
  | vnull
  | vstr (s : String)
  | varr (elems : List Value)
  | vobj (fields : List (String × Value))
  | vinst (cls : String) (own : List (String × Value)) (internal : Nat)
  | vnum (n : Int)
  | vbool (b : Bool)
  | vother (tag : Nat)

mutual

/-- `doResolve`: runtime shape dispatch. `undefined`/`null` are returned
as-is; strings are scanned and substituted; arrays recurse elementwise;
anything of object type goes through `doResolveObject`; all other scalars
are returned unchanged. -/
def doResolve (reg : Registry) (v : Value) (ctx : Ctx) : Except String (Value × Ctx) :=
  match v with
  | .vundef => .ok (.vundef, ctx)
  | .vnull => .ok (.vnull, ctx)
  | .vstr s => do
    let p ← doResolveString reg s ctx
    .ok (.vstr p.1, p.2)
  | .varr vs => do
    let p ← doResolveArray reg vs ctx
    .ok (.varr p.1, p.2)
  | .vobj fs => do
    let p ← doResolveObject reg fs ctx
    .ok (.vobj p.1, p.2)
  | .vinst _ own _ => do
    let p ← doResolveObject reg own ctx
    .ok (.vobj p.1, p.2)
  | .vnum n => .ok (.vnum n, ctx)
  | .vbool b => .ok (.vbool b, ctx)
  | .vother t => .ok (.vother t, ctx)

/-- `doResolveArray`: resolve each element in order into a fresh array. -/
def doResolveArray (reg : Registry) (vs : List Value) (ctx : Ctx) :
    Except String (List Value × Ctx) :=
  match vs with
  | [] => .ok ([], ctx)
  | v :: rest => do
    let p ← doResolve reg v ctx
    let q ← doResolveArray reg rest p.2
    .ok (p.1 :: q.1, q.2)

/-- `doResolveObject`: for each own enumerable key in enumeration order,
resolve the value and store it under the same key in a fresh object. -/
def doResolveObject (reg : Registry) (fs : List (String × Value)) (ctx : Ctx) :
    Except String (List (String × Value) × Ctx) :=
  match fs with
  | [] => .ok ([], ctx)
  | f :: rest => do
    let p ← doResolve reg f.2 ctx
    let q ← doResolveObject reg rest p.2
    .ok ((f.1, p.1) :: q.1, q.2)

end

/-- `VariableResolverService.resolve`: create a fresh `Context`, run the
traversal, and return the resolved value. -/
def resolve (reg : Registry) (v : Value) : Except String Value := do
  let p ← doResolve reg v Ctx.empty
  .ok p.1

/-- `VariableResolverService.resolveArray`: delegate to the generic
`resolve` on the string array. -/
def resolveArray (reg : Registry) (vs : List String) : Except String Value :=
  resolve reg (.varr (vs.map Value.vstr))

mutual

/-- Denotation of the traversal: every reachable string is rewritten by the
substitution pass under a fixed name-to-value map, class instances collapse
to plain objects, and every other scalar is kept. -/
def substValue (g : Name → Option Name) (v : Value) : Value :=
  match v with
  | .vundef => .vundef
  | .vnull => .vnull
  | .vstr s => .vstr (String.mk (substTokens g s.data))
  | .varr vs => .varr (substValueList g vs)
  | .vobj fs => .vobj (substValueFields g fs)
  | .vinst _ own _ => .vobj (substValueFields g own)
  | .vnum n => .vnum n
  | .vbool b => .vbool b
  | .vother t => .vother t

def substValueList (g : Name → Option Name) (vs : List Value) : List Value :=
  match vs with
  | [] => []
  | v :: rest => substValue g v :: substValueList g rest

def substValueFields (g : Name → Option Name) (fs : List (String × Value)) :
    List (String × Value) :=
  match fs with
  | [] => []
  | f :: rest => (f.1, substValue g f.2) :: substValueFields g rest

end

mutual

/-- Values of the shape the specification's data model describes: trees of
primitives, strings, sequences and plain mappings (no class instances). -/
def Plain (v : Value) : Bool :=
  match v with
  | .varr vs => PlainList vs
  | .vobj fs => PlainFields fs
  | .vinst _ _ _ => false
  | _ => true

def PlainList (vs : List Value) : Bool :=
  match vs with
  | [] => true
  | v :: rest => Plain v && PlainList rest

def PlainFields (fs : List (String × Value)) : Bool :=
  match fs with
  | [] => true
  | f :: rest => Plain f.2 && PlainFields rest

end

mutual

/-- No string reachable in the value matches the token pattern. -/
def tokenFree (v : Value) : Bool :=
  match v with
  | .vstr s => (scanTokens s.data).isEmpty
  | .varr vs => tokenFreeList vs
  | .vobj fs => tokenFreeFields fs
  | .vinst _ own _ => tokenFreeFields own
  | _ => true

def tokenFreeList (vs : List Value) : Bool :=
  match vs with
  | [] => true
  | v :: rest => tokenFree v && tokenFreeList rest

def tokenFreeFields (fs : List (String × Value)) : Bool :=
  match fs with
  | [] => true
  | f :: rest => tokenFree f.2 && tokenFreeFields rest

end

mutual

/-- Shape equality: same kind of node everywhere, the same mapping keys in
the same enumeration order, the same sequence lengths and element order;
string leaves may differ, every other scalar must be identical. -/
def SameShape (a b : Value) : Bool :=
  match a, b with
  | .vundef, .vundef => true
  | .vnull, .vnull => true
  | .vstr _, .vstr _ => true
  | .varr va, .varr vb => SameShapeList va vb
  | .vobj fa, .vobj fb => SameShapeFields fa fb
  | .vnum na, .vnum nb => na == nb
  | .vbool ba, .vbool bb => ba == bb
  | .vother ta, .vother tb => ta == tb
  | _, _ => false

def SameShapeList (va vb : List Value) : Bool :=
  match va, vb with
  | [], [] => true
  | a :: ra, b :: rb => SameShape a b && SameShapeList ra rb
  | _, _ => false

def SameShapeFields (fa fb : List (String × Value)) : Bool :=
  match fa, fb with
  | [], [] => true
  | a :: ra, b :: rb => (a.1 == b.1 && SameShape a.2 b.2) && SameShapeFields ra rb
  | _, _ => false

end

/-- The invariant a `Context` keeps during one top-level call: every cached
value is the registry-determined value for its name, the registry has been
consulted at most once per name, and only for names that are cached. -/
def CtxInv (reg : Registry) (ctx : Ctx) : Prop :=
  (∀ n v, findEntry n ctx.resolved = some v → v = regValue reg n) ∧
  ctx.lookups.Nodup ∧
  (∀ n ∈ ctx.lookups, (findEntry n ctx.resolved).isSome = true)

/-- What the substitution pass writes for one token occurrence: the cached
value when the name resolved, the original token text otherwise. -/
def replacedText (reg : Registry) (X : Name) : List Char :=
  match regValue reg X with
  | some v => v
  | none => tokenText X

/-- A concrete registry for witnesses: name `X` resolves to `V`, name `B`
has a variable whose `resolve()` rejects, everything else is unknown. -/
def regSample : Registry := fun n =>
  if n = ['X'] then .varValue (some ['V'])
  else if n = ['B'] then .varResolveThrows "boom"
  else .noVariable

/-- A registry that resolves every name, for the C8 counterexample. -/
def regAll : Registry := fun _ => .varValue (some ['V'])

/-- A concrete plain input value for witnesses. -/
def sampleValue : Value :=
  .vobj [("a", .vstr "$\x7bX\x7d"),
         ("b", .varr [.vstr "$\x7bX\x7d", .vnum 42, .vnull])]

theorem grabName_sound : ∀ cs n r, grabName cs = some (n, r) →
    cs = n ++ '\x7d' :: r ∧ validName n = true := by
  intro cs
  induction cs with
  | nil => intro n r h; simp [grabName] at h
  | cons c cs ih =>
    intro n r h
    simp only [grabName] at h
    split at h
    · cases h
      constructor
      · simp_all
      · simp [validName]
    · split at h
      · cases h
      · cases hg : grabName cs with
        | none => rw [hg] at h; cases h
        | some p =>
          rw [hg] at h
          cases h
          obtain ⟨he, hv⟩ := ih p.1 p.2 (by rw [hg])
          constructor
          · simp [he]
          · simp only [validName, List.all_cons, Bool.and_eq_true, bne_iff_ne] at hv ⊢
            refine ⟨⟨?_, ?_⟩, hv⟩
            · intro hc; subst hc; simp_all
            · simp_all

theorem grabName_complete : ∀ n r, validName n = true →
    grabName (n ++ '\x7d' :: r) = some (n, r) := by
  intro n
  induction n with
  | nil => intro r _; simp [grabName]
  | cons c n ih =>
    intro r hv
    simp only [validName, List.all_cons, Bool.and_eq_true, bne_iff_ne] at hv
    obtain ⟨⟨hc, hl⟩, hv⟩ := hv
    have hv2 : validName n = true := by simpa [validName] using hv
    show grabName (c :: (n ++ '\x7d' :: r)) = some (c :: n, r)
    simp only [grabName]
    rw [if_neg hc, if_neg (by simp_all), ih r hv2]
    simp

theorem matchTokenAt_sound : ∀ l n r, matchTokenAt l = some (n, r) →
    l = tokenText n ++ r ∧ validName n = true := by
  intro l n r h
  unfold matchTokenAt at h
  split at h
  · obtain ⟨he, hv⟩ := grabName_sound _ _ _ h
    refine ⟨?_, hv⟩
    simp [tokenText, he]
  · cases h

theorem matchTokenAt_complete (n : Name) (r : List Char) (hv : validName n = true) :
    matchTokenAt (tokenText n ++ r) = some (n, r) := by
  have : tokenText n ++ r = '$' :: '\x7b' :: (n ++ '\x7d' :: r) := by
    simp [tokenText]
  rw [this]
  unfold matchTokenAt
  exact grabName_complete n r hv

theorem scanTokens_nil : scanTokens [] = [] := by
  simp [scanTokens]

theorem scanTokens_matched (c : Char) (cs : List Char) (n : Name) (r : List Char)
    (h : matchTokenAt (c :: cs) = some (n, r)) :
    scanTokens (c :: cs) = n :: scanTokens r := by
  rw [scanTokens]
  split
  · next p heq => rw [h] at heq; cases heq; rfl
  · next heq => rw [h] at heq; cases heq

theorem scanTokens_skip (c : Char) (cs : List Char)
    (h : matchTokenAt (c :: cs) = none) :
    scanTokens (c :: cs) = scanTokens cs := by
  rw [scanTokens]
  split
  · next p heq => rw [h] at heq; cases heq
  · rfl

theorem scanTokens_token (n : Name) (r : List Char) (hv : validName n = true) :
    scanTokens (tokenText n ++ r) = n :: scanTokens r := by
  have h := matchTokenAt_complete n r hv
  have : tokenText n ++ r = '$' :: ('\x7b' :: (n ++ '\x7d' :: r)) := by
    simp [tokenText]
  rw [this] at h ⊢
  exact scanTokens_matched _ _ _ _ h

theorem substTokens_nil (g : Name → Option Name) : substTokens g [] = [] := by
  simp [substTokens]

theorem substTokens_matched (g : Name → Option Name) (c : Char) (cs : List Char)
    (n : Name) (r : List Char) (h : matchTokenAt (c :: cs) = some (n, r)) :
    substTokens g (c :: cs) =
      (match g n with
       | some v => v
       | none => tokenText n) ++ substTokens g r := by
  rw [substTokens]
  split
  · next p heq => rw [h] at heq; cases heq; rfl
  · next heq => rw [h] at heq; cases heq

theorem substTokens_skip (g : Name → Option Name) (c : Char) (cs : List Char)
    (h : matchTokenAt (c :: cs) = none) :
    substTokens g (c :: cs) = c :: substTokens g cs := by
  rw [substTokens]
  split
  · next p heq => rw [h] at heq; cases heq
  · rfl

theorem substTokens_token (g : Name → Option Name) (n : Name) (r : List Char)
    (hv : validName n = true) :
    substTokens g (tokenText n ++ r) =
      (match g n with
       | some v => v
       | none => tokenText n) ++ substTokens g r := by
  have h := matchTokenAt_complete n r hv
  have he : tokenText n ++ r = '$' :: ('\x7b' :: (n ++ '\x7d' :: r)) := by
    simp [tokenText]
  rw [he] at h ⊢
  exact substTokens_matched _ _ _ _ _ h

theorem substTokens_congr (g g2 : Name → Option Name) :
    ∀ l, (∀ n ∈ scanTokens l, g n = g2 n) → substTokens g l = substTokens g2 l := by
  have main : ∀ len l, l.length ≤ len → (∀ n ∈ scanTokens l, g n = g2 n) →
      substTokens g l = substTokens g2 l := by
    intro len
    induction len with
    | zero =>
      intro l hlen h
      have : l = [] := List.eq_nil_of_length_eq_zero (by omega)
      subst this
      rw [substTokens_nil, substTokens_nil]
    | succ len ih =>
      intro l hlen h
      match l with
      | [] => rw [substTokens_nil, substTokens_nil]
      | c :: cs =>
        cases hm : matchTokenAt (c :: cs) with
        | some p =>
          obtain ⟨n, r⟩ := p
          rw [substTokens_matched g c cs n r hm, substTokens_matched g2 c cs n r hm]
          have hscan := scanTokens_matched c cs n r hm
          have hg : g n = g2 n := h n (by rw [hscan]; simp)
          have hr : ∀ m ∈ scanTokens r, g m = g2 m := fun m hmem =>
            h m (by rw [hscan]; simp [hmem])
          have hlt := matchTokenAt_length _ _ _ hm
          rw [hg, ih r (by simp at hlt hlen ⊢; omega) hr]
        | none =>
          rw [substTokens_skip g c cs hm, substTokens_skip g2 c cs hm]
          have hscan := scanTokens_skip c cs hm
          rw [ih cs (by simp at hlen; omega) (fun m hmem => h m (by rw [hscan]; exact hmem))]
  intro l h
  exact main l.length l (le_refl _) h

theorem substTokens_id_of_absent (g : Name → Option Name) :
    ∀ l, (∀ n ∈ scanTokens l, g n = none) → substTokens g l = l := by
  have main : ∀ len l, l.length ≤ len → (∀ n ∈ scanTokens l, g n = none) →
      substTokens g l = l := by
    intro len
    induction len with
    | zero =>
      intro l hlen h
      have : l = [] := List.eq_nil_of_length_eq_zero (by omega)
      subst this
      rw [substTokens_nil]
    | succ len ih =>
      intro l hlen h
      match l with
      | [] => rw [substTokens_nil]
      | c :: cs =>
        cases hm : matchTokenAt (c :: cs) with
        | some p =>
          obtain ⟨n, r⟩ := p
          rw [substTokens_matched g c cs n r hm]
          have hscan := scanTokens_matched c cs n r hm
          have hg : g n = none := h n (by rw [hscan]; simp)
          have hr : ∀ m ∈ scanTokens r, g m = none := fun m hmem =>
            h m (by rw [hscan]; simp [hmem])
          have hlt := matchTokenAt_length _ _ _ hm
          have hrec := ih r (by simp at hlt hlen ⊢; omega) hr
          obtain ⟨he, _⟩ := matchTokenAt_sound _ _ _ hm
          rw [hg, hrec, ← he]
        | none =>
          rw [substTokens_skip g c cs hm]
          have hscan := scanTokens_skip c cs hm
          rw [ih cs (by simp at hlen; omega) (fun m hmem => h m (by rw [hscan]; exact hmem))]
  intro l h
  exact main l.length l (le_refl _) h

theorem ctxInv_empty (reg : Registry) : CtxInv reg Ctx.empty := by
  refine ⟨?_, ?_, ?_⟩
  · intro n v h; simp [Ctx.empty, findEntry] at h
  · simp [Ctx.empty]
  · intro n h; simp [Ctx.empty] at h

theorem findEntry_append (n : Name) (l : List (Name × Option Name)) (m : Name)
    (v : Option Name) :
    findEntry n (l ++ [(m, v)]) =
      match findEntry n l with
      | some w => some w
      | none => if m = n then some v else none := by
  induction l with
  | nil => simp [findEntry]
  | cons e rest ih =>
    by_cases he : e.1 = n
    · simp [findEntry, he]
    · simp only [List.cons_append, findEntry, if_neg he, List.append_eq, ih]

theorem ctxResolve_spec (reg : Registry) (ctx : Ctx) (n : Name) (h : CtxInv reg ctx) :
    ∃ c2, Ctx.resolve reg ctx n = .ok c2 ∧ CtxInv reg c2 ∧
      findEntry n c2.resolved = some (regValue reg n) ∧
      (∀ m w, findEntry m ctx.resolved = some w → findEntry m c2.resolved = some w) := by
  obtain ⟨h1, h2, h3⟩ := h
  by_cases hn : ctx.has n = true
  · refine ⟨ctx, by simp [Ctx.resolve, hn], ⟨h1, h2, h3⟩, ?_, fun m w hw => hw⟩
    cases hfe : findEntry n ctx.resolved with
    | none => rw [Ctx.has, hfe] at hn; cases hn
    | some v => rw [h1 n v hfe]
  · have hn2 : findEntry n ctx.resolved = none := by
      cases hfe : findEntry n ctx.resolved with
      | none => rfl
      | some v => rw [Ctx.has, hfe] at hn; simp at hn
    have hnl : n ∉ ctx.lookups := by
      intro hm
      have hs := h3 n hm
      rw [hn2] at hs
      cases hs
    have hmain : ∀ (v : Option Name) (d : List (Name × String)),
        v = regValue reg n →
        CtxInv reg ⟨ctx.resolved ++ [(n, v)], ctx.lookups ++ [n], d⟩ ∧
        findEntry n (ctx.resolved ++ [(n, v)]) = some (regValue reg n) ∧
        (∀ m w, findEntry m ctx.resolved = some w →
          findEntry m (ctx.resolved ++ [(n, v)]) = some w) := by
      intro v d hv
      have hmono : ∀ m w, findEntry m ctx.resolved = some w →
          findEntry m (ctx.resolved ++ [(n, v)]) = some w := by
        intro m w hw
        rw [findEntry_append, hw]
      refine ⟨⟨?_, ?_, ?_⟩, ?_, hmono⟩
      · intro m w hw
        rw [findEntry_append] at hw
        cases hfm : findEntry m ctx.resolved with
        | some w2 => rw [hfm] at hw; cases hw; exact h1 m w hfm
        | none =>
          rw [hfm] at hw
          by_cases hnm : n = m
          · rw [if_pos hnm] at hw
            cases hw
            rw [← hnm, ← hv]
          · rw [if_neg hnm] at hw; cases hw
      · simp only [List.nodup_append, List.nodup_cons, List.nodup_nil]
        refine ⟨h2, by simp, ?_⟩
        intro a ha hae
        simp only [List.mem_singleton] at hae
        exact hnl (hae ▸ ha)
      · intro m hm
        simp only [List.mem_append, List.mem_singleton] at hm
        rcases hm with hm | hm
        · have hs := h3 m hm
          cases hfm : findEntry m ctx.resolved with
          | none => rw [hfm] at hs; cases hs
          | some w => rw [hmono m w hfm]; rfl
        · subst hm
          rw [findEntry_append, hn2]
          simp
      · rw [findEntry_append, hn2]
        simp [hv]
    cases htl : tryLookup reg n with
    | ok v =>
      have hv : v = regValue reg n := by simp [regValue, htl]
      obtain ⟨hinv, hfind, hmono⟩ := hmain v ctx.diagnostics hv
      exact ⟨_, by simp [Ctx.resolve, hn, htl], hinv, hfind, hmono⟩
    | error e =>
      have hv : (none : Option Name) = regValue reg n := by simp [regValue, htl]
      obtain ⟨hinv, hfind, hmono⟩ := hmain none (ctx.diagnostics ++ [(n, e)]) hv
      exact ⟨_, by simp [Ctx.resolve, hn, htl], hinv, hfind, hmono⟩

theorem resolveVariablesSeq_spec (reg : Registry) :
    ∀ ns ctx, CtxInv reg ctx →
    ∃ c2, resolveVariablesSeq reg ns ctx = .ok c2 ∧ CtxInv reg c2 ∧
      (∀ m w, findEntry m ctx.resolved = some w → findEntry m c2.resolved = some w) ∧
      (∀ n ∈ ns, findEntry n c2.resolved = some (regValue reg n)) := by
  intro ns
  induction ns with
  | nil =>
    intro ctx h
    exact ⟨ctx, rfl, h, fun m w hw => hw, by simp⟩
  | cons n ns ih =>
    intro ctx h
    obtain ⟨c1, he1, hinv1, hfind1, hmono1⟩ := ctxResolve_spec reg ctx n h
    obtain ⟨c2, he2, hinv2, hmono2, hall2⟩ := ih c1 hinv1
    refine ⟨c2, ?_, hinv2, ?_, ?_⟩
    · simp only [resolveVariablesSeq, he1]
      exact he2
    · exact fun m w hw => hmono2 m w (hmono1 m w hw)
    · intro m hm
      rcases List.mem_cons.mp hm with hm | hm
      · subst hm; exact hmono2 m _ hfind1
      · exact hall2 m hm

theorem doResolveString_spec (reg : Registry) (s : String) (ctx : Ctx)
    (h : CtxInv reg ctx) :
    ∃ c2, doResolveString reg s ctx =
        .ok (String.mk (substTokens (regValue reg) s.data), c2) ∧ CtxInv reg c2 ∧
      (∀ m w, findEntry m ctx.resolved = some w → findEntry m c2.resolved = some w) := by
  obtain ⟨c2, he, hinv, hmono, hall⟩ := resolveVariablesSeq_spec reg (scanTokens s.data) ctx h
  have hg : ∀ n ∈ scanTokens s.data, (fun n => c2.get n) n = regValue reg n := by
    intro n hn
    have hx := hall n hn
    simp [Ctx.get, hx]
  have hsub := substTokens_congr (fun n => c2.get n) (regValue reg) s.data hg
  refine ⟨c2, ?_, hinv, hmono⟩
  simp only [doResolveString, resolveVariables, he]
  show Except.ok (String.mk (substTokens (fun n => c2.get n) s.data), c2) =
    Except.ok (String.mk (substTokens (regValue reg) s.data), c2)
  rw [hsub]

theorem exceptBind_ok {α β : Type} (a : α) (f : α → Except String β) :
    (Except.ok a >>= f) = f a := rfl

mutual

theorem doResolve_spec (reg : Registry) (v : Value) (ctx : Ctx) (h : CtxInv reg ctx) :
    ∃ c2, doResolve reg v ctx = .ok (substValue (regValue reg) v, c2) ∧ CtxInv reg c2 := by
  match v with
  | .vundef => exact ⟨ctx, by simp [doResolve, substValue], h⟩
  | .vnull => exact ⟨ctx, by simp [doResolve, substValue], h⟩
  | .vstr s =>
    obtain ⟨c2, he, hinv, _⟩ := doResolveString_spec reg s ctx h
    refine ⟨c2, ?_, hinv⟩
    simp only [doResolve, he, exceptBind_ok, substValue]
  | .varr vs =>
    obtain ⟨c2, he, hinv⟩ := doResolveArray_spec reg vs ctx h
    refine ⟨c2, ?_, hinv⟩
    simp only [doResolve, he, exceptBind_ok, substValue]
  | .vobj fs =>
    obtain ⟨c2, he, hinv⟩ := doResolveObject_spec reg fs ctx h
    refine ⟨c2, ?_, hinv⟩
    simp only [doResolve, he, exceptBind_ok, substValue]
  | .vinst cls own internal =>
    obtain ⟨c2, he, hinv⟩ := doResolveObject_spec reg own ctx h
    refine ⟨c2, ?_, hinv⟩
    simp only [doResolve, he, exceptBind_ok, substValue]
  | .vnum n => exact ⟨ctx, by simp [doResolve, substValue], h⟩
  | .vbool b => exact ⟨ctx, by simp [doResolve, substValue], h⟩
  | .vother t => exact ⟨ctx, by simp [doResolve, substValue], h⟩

theorem doResolveArray_spec (reg : Registry) (vs : List Value) (ctx : Ctx)
    (h : CtxInv reg ctx) :
    ∃ c2, doResolveArray reg vs ctx =
      .ok (substValueList (regValue reg) vs, c2) ∧ CtxInv reg c2 := by
  match vs with
  | [] => exact ⟨ctx, by simp [doResolveArray, substValueList], h⟩
  | v :: rest =>
    obtain ⟨c1, he1, hinv1⟩ := doResolve_spec reg v ctx h
    obtain ⟨c2, he2, hinv2⟩ := doResolveArray_spec reg rest c1 hinv1
    refine ⟨c2, ?_, hinv2⟩
    simp only [doResolveArray, he1, exceptBind_ok, he2, substValueList]

theorem doResolveObject_spec (reg : Registry) (fs : List (String × Value)) (ctx : Ctx)
    (h : CtxInv reg ctx) :
    ∃ c2, doResolveObject reg fs ctx =
      .ok (substValueFields (regValue reg) fs, c2) ∧ CtxInv reg c2 := by
  match fs with
  | [] => exact ⟨ctx, by simp [doResolveObject, substValueFields], h⟩
  | ⟨k, w⟩ :: rest =>
    obtain ⟨c1, he1, hinv1⟩ := doResolve_spec reg w ctx h
    obtain ⟨c2, he2, hinv2⟩ := doResolveObject_spec reg rest c1 hinv1
    refine ⟨c2, ?_, hinv2⟩
    simp only [doResolveObject, he1, exceptBind_ok, he2, substValueFields]

end

/-- Top-level corollary of the master lemma: `resolve` succeeds on every
input and returns the denotation. -/
theorem resolve_eq_substValue (reg : Registry) (v : Value) :
    resolve reg v = .ok (substValue (regValue reg) v) := by
  obtain ⟨c2, he, _⟩ := doResolve_spec reg v Ctx.empty (ctxInv_empty reg)
  simp only [resolve, he, exceptBind_ok]

mutual

theorem sameShape_substValue (g : Name → Option Name) (v : Value) (h : Plain v = true) :
    SameShape v (substValue g v) = true := by
  match v with
  | .vundef => simp [substValue, SameShape]
  | .vnull => simp [substValue, SameShape]
  | .vstr s => simp [substValue, SameShape]
  | .varr vs =>
    have hl : PlainList vs = true := by simpa [Plain] using h
    have hrec := sameShapeList_substValue g vs hl
    simp [substValue, SameShape, hrec]
  | .vobj fs =>
    have hl : PlainFields fs = true := by simpa [Plain] using h
    have hrec := sameShapeFields_substValue g fs hl
    simp [substValue, SameShape, hrec]
  | .vinst cls own internal => simp [Plain] at h
  | .vnum n => simp [substValue, SameShape]
  | .vbool b => simp [substValue, SameShape]
  | .vother t => simp [substValue, SameShape]

theorem sameShapeList_substValue (g : Name → Option Name) (vs : List Value)
    (h : PlainList vs = true) :
    SameShapeList vs (substValueList g vs) = true := by
  match vs with
  | [] => simp [substValueList, SameShapeList]
  | v :: rest =>
    have hp : Plain v = true ∧ PlainList rest = true := by
      simpa [PlainList, Bool.and_eq_true] using h
    have h1 := sameShape_substValue g v hp.1
    have h2 := sameShapeList_substValue g rest hp.2
    simp [substValueList, SameShapeList, h1, h2]

theorem sameShapeFields_substValue (g : Name → Option Name) (fs : List (String × Value))
    (h : PlainFields fs = true) :
    SameShapeFields fs (substValueFields g fs) = true := by
  match fs with
  | [] => simp [substValueFields, SameShapeFields]
  | f :: rest =>
    have hp : Plain f.2 = true ∧ PlainFields rest = true := by
      simpa [PlainFields, Bool.and_eq_true] using h
    have h1 := sameShape_substValue g f.2 hp.1
    have h2 := sameShapeFields_substValue g rest hp.2
    simp [substValueFields, SameShapeFields, h1, h2]

end

mutual

theorem doResolve_id (reg : Registry) (v : Value) (ctx : Ctx)
    (h1 : Plain v = true) (h2 : tokenFree v = true) :
    doResolve reg v ctx = .ok (v, ctx) := by
  match v with
  | .vundef => simp [doResolve]
  | .vnull => simp [doResolve]
  | .vstr s =>
    have hs : scanTokens s.data = [] := by
      simpa [tokenFree, List.isEmpty_iff] using h2
    have hrv : resolveVariables reg s ctx = .ok ctx := by
      simp [resolveVariables, hs, resolveVariablesSeq]
    have hsub : substTokens (fun n => ctx.get n) s.data = s.data :=
      substTokens_id_of_absent _ s.data (by simp [hs])
    simp only [doResolve, doResolveString, hrv, exceptBind_ok, hsub]
  | .varr vs =>
    have hp : PlainList vs = true := by simpa [Plain] using h1
    have ht : tokenFreeList vs = true := by simpa [tokenFree] using h2
    have hrec := doResolveArray_id reg vs ctx hp ht
    simp only [doResolve, hrec, exceptBind_ok]
  | .vobj fs =>
    have hp : PlainFields fs = true := by simpa [Plain] using h1
    have ht : tokenFreeFields fs = true := by simpa [tokenFree] using h2
    have hrec := doResolveObject_id reg fs ctx hp ht
    simp only [doResolve, hrec, exceptBind_ok]
  | .vinst cls own internal => simp [Plain] at h1
  | .vnum n => simp [doResolve]
  | .vbool b => simp [doResolve]
  | .vother t => simp [doResolve]

theorem doResolveArray_id (reg : Registry) (vs : List Value) (ctx : Ctx)
    (h1 : PlainList vs = true) (h2 : tokenFreeList vs = true) :
    doResolveArray reg vs ctx = .ok (vs, ctx) := by
  match vs with
  | [] => simp [doResolveArray]
  | v :: rest =>
    have hp : Plain v = true ∧ PlainList rest = true := by
      simpa [PlainList, Bool.and_eq_true] using h1
    have ht : tokenFree v = true ∧ tokenFreeList rest = true := by
      simpa [tokenFreeList, Bool.and_eq_true] using h2
    have he1 := doResolve_id reg v ctx hp.1 ht.1
    have he2 := doResolveArray_id reg rest ctx hp.2 ht.2
    simp only [doResolveArray, he1, exceptBind_ok, he2]

theorem doResolveObject_id (reg : Registry) (fs : List (String × Value)) (ctx : Ctx)
    (h1 : PlainFields fs = true) (h2 : tokenFreeFields fs = true) :
    doResolveObject reg fs ctx = .ok (fs, ctx) := by
  match fs with
  | [] => simp [doResolveObject]
  | ⟨k, w⟩ :: rest =>
    have hp : Plain w = true ∧ PlainFields rest = true := by
      simpa [PlainFields, Bool.and_eq_true] using h1
    have ht : tokenFree w = true ∧ tokenFreeFields rest = true := by
      simpa [tokenFreeFields, Bool.and_eq_true] using h2
    have he1 := doResolve_id reg w ctx hp.1 ht.1
    have he2 := doResolveObject_id reg rest ctx hp.2 ht.2
    simp only [doResolveObject, he1, exceptBind_ok, he2]

end

theorem substValueList_map_vstr (g : Name → Option Name) (ss : List String) :
    substValueList g (ss.map Value.vstr) =
      (ss.map (fun s => String.mk (substTokens g s.data))).map Value.vstr := by
  induction ss with
  | nil => simp [substValueList]
  | cons s ss ih => simp [substValueList, substValue, ih]

theorem substValueFields_keys (g : Name → Option Name) (fs : List (String × Value)) :
    (substValueFields g fs).map Prod.fst = fs.map Prod.fst := by
  induction fs with
  | nil => simp [substValueFields]
  | cons f rest ih => simp [substValueFields, ih]

theorem substTokens_single_token (g : Name → Option Name) (X : Name)
    (hX : validName X = true) :
    substTokens g (tokenText X) =
      match g X with
      | some v => v
      | none => tokenText X := by
  have h := substTokens_token g X [] hX
  rw [show tokenText X ++ ([] : List Char) = tokenText X from by simp] at h
  rw [h, substTokens_nil, List.append_nil]

/-- C1: for a string containing a token for name X, when the registry
resolves X to V, the returned string is the input with the substitution pass
applied under the registry-determined values — so every token occurrence is
replaced, and each occurrence of the X token is replaced by exactly V (the
scan phase has populated the cache for every matched name beforehand, which
is why the substitution reads `regValue` everywhere). -/
theorem resolved_token_substituted_everywhere (reg : Registry) (X V : Name)
    (hX : validName X = true) (hreg : regValue reg X = some V) :
    (∀ s : String, resolve reg (.vstr s) =
      .ok (.vstr (String.mk (substTokens (regValue reg) s.data)))) ∧
    (∀ r : List Char, substTokens (regValue reg) (tokenText X ++ r) =
      V ++ substTokens (regValue reg) r) := by
  constructor
  · intro s
    rw [resolve_eq_substValue]
    simp [substValue]
  · intro r
    rw [substTokens_token _ _ _ hX, hreg]

theorem resolved_token_substituted_everywhere_witness :
    validName ['X'] = true ∧ regValue regSample ['X'] = some ['V'] ∧
    resolve regSample (.vstr "a$\x7bX\x7db$\x7bX\x7d") = .ok (.vstr "aVbV") := by
  have h := resolved_token_substituted_everywhere regSample ['X'] ['V']
    (by decide) (by decide)
  refine ⟨by decide, by decide, ?_⟩
  rw [h.1 "a$\x7bX\x7db$\x7bX\x7d"]
  have hd : ("a$\x7bX\x7db$\x7bX\x7d" : String).data =
      'a' :: (tokenText ['X'] ++ ('b' :: (tokenText ['X'] ++ []))) := by decide
  rw [hd, substTokens_skip _ _ _ (by decide), h.2, substTokens_skip _ _ _ (by decide),
    h.2, substTokens_nil]
  rfl

/-- C2: resolution preserves the shape of every value of the data model
(trees of primitives, strings, sequences and plain mappings): same node
kind everywhere, same mapping keys in the same order, same sequence lengths
and order, and only string leaves may change; every other scalar is
returned unchanged (shape equality requires identity on those leaves). -/
theorem resolve_preserves_shape (reg : Registry) (v : Value) (h : Plain v = true) :
    ∃ r, resolve reg v = .ok r ∧ SameShape v r = true :=
  ⟨_, resolve_eq_substValue reg v, sameShape_substValue _ v h⟩

theorem resolve_preserves_shape_witness :
    Plain sampleValue = true ∧
    ∃ r, resolve regSample sampleValue = .ok r ∧ SameShape sampleValue r = true := by
  have hp : Plain sampleValue = true := by
    simp [sampleValue, Plain, PlainList, PlainFields]
  exact ⟨hp, resolve_preserves_shape regSample sampleValue hp⟩

/-- C3: for every input value and every registry behaviour — including an
unknown variable, a `getVariable` that rejects and a `variable.resolve()`
that rejects — `resolve` returns a fulfilled promise; a rejection inside the
lookup is caught inside `Context.resolve`, which still fulfills, reports the
failure on the diagnostic channel, and caches the name as absent. -/
theorem resolve_never_rejects (reg : Registry) (v : Value) (ctx : Ctx)
    (n : Name) (m : String)
    (h1 : Ctx.has ctx n = false) (h2 : tryLookup reg n = .error m) :
    (∃ r, resolve reg v = .ok r) ∧
    Ctx.resolve reg ctx n =
      .ok ⟨ctx.resolved ++ [(n, none)], ctx.lookups ++ [n],
           ctx.diagnostics ++ [(n, m)]⟩ := by
  refine ⟨⟨_, resolve_eq_substValue reg v⟩, ?_⟩
  simp [Ctx.resolve, h1, h2]

theorem resolve_never_rejects_witness :
    Ctx.has Ctx.empty ['B'] = false ∧ tryLookup regSample ['B'] = .error "boom" ∧
    ((∃ r, resolve regSample sampleValue = .ok r) ∧
      Ctx.resolve regSample Ctx.empty ['B'] =
        .ok ⟨[(['B'], none)], [['B']], [(['B'], "boom")]⟩) :=
  ⟨by decide, by rfl,
    resolve_never_rejects regSample sampleValue Ctx.empty ['B'] "boom"
      (by decide) (by rfl)⟩

/-- C4: within one top-level call each distinct name is looked up from the
registry at most once (the lookup log of the final context has no
duplicates), and for the string made of the same token twice the registry
is consulted exactly once and both occurrences get the same replacement. -/
theorem registry_lookup_once (reg : Registry) (v : Value) (X : Name)
    (hX : validName X = true) :
    (∃ r c2, doResolve reg v Ctx.empty = .ok (r, c2) ∧ c2.lookups.Nodup) ∧
    (∃ c2, doResolveString reg (String.mk (tokenText X ++ tokenText X)) Ctx.empty =
        .ok (String.mk (replacedText reg X ++ replacedText reg X), c2) ∧
      c2.lookups = [X]) := by
  constructor
  · obtain ⟨c2, he, hinv⟩ := doResolve_spec reg v Ctx.empty (ctxInv_empty reg)
    exact ⟨_, c2, he, hinv.2.1⟩
  · have hscan : scanTokens (tokenText X ++ tokenText X) = [X, X] := by
      rw [scanTokens_token _ _ hX]
      rw [show tokenText X = tokenText X ++ [] by simp]
      rw [scanTokens_token _ _ hX, scanTokens_nil]
    have hstep1 : ∃ d, Ctx.resolve reg Ctx.empty X =
        .ok ⟨[(X, regValue reg X)], [X], d⟩ := by
      cases htl : tryLookup reg X with
      | ok w =>
        refine ⟨[], ?_⟩
        have : regValue reg X = w := by simp [regValue, htl]
        simp [Ctx.resolve, Ctx.has, Ctx.empty, findEntry, htl, this]
      | error e =>
        refine ⟨[(X, e)], ?_⟩
        have : regValue reg X = none := by simp [regValue, htl]
        simp [Ctx.resolve, Ctx.has, Ctx.empty, findEntry, htl, this]
    obtain ⟨d, hd⟩ := hstep1
    have hstep2 : Ctx.resolve reg ⟨[(X, regValue reg X)], [X], d⟩ X =
        .ok ⟨[(X, regValue reg X)], [X], d⟩ := by
      simp [Ctx.resolve, Ctx.has, findEntry]
    have hget : (Ctx.get ⟨[(X, regValue reg X)], [X], d⟩) X = regValue reg X := by
      simp [Ctx.get, findEntry]
    refine ⟨⟨[(X, regValue reg X)], [X], d⟩, ?_, rfl⟩
    have hdata : (String.mk (tokenText X ++ tokenText X)).data =
        tokenText X ++ tokenText X := rfl
    have hsub : substTokens (fun n => Ctx.get ⟨[(X, regValue reg X)], [X], d⟩ n)
        (tokenText X ++ tokenText X) = replacedText reg X ++ replacedText reg X := by
      rw [substTokens_token _ _ _ hX, substTokens_single_token _ _ hX]
      simp only [hget]
      rfl
    simp only [doResolveString, resolveVariables, hdata, hscan, resolveVariablesSeq,
      hd, exceptBind_ok, hstep2, hsub]

theorem registry_lookup_once_witness :
    validName ['X'] = true ∧
    ((∃ r c2, doResolve regSample sampleValue Ctx.empty = .ok (r, c2) ∧
        c2.lookups.Nodup) ∧
      (∃ c2, doResolveString regSample
          (String.mk (tokenText ['X'] ++ tokenText ['X'])) Ctx.empty =
          .ok (String.mk (replacedText regSample ['X'] ++ replacedText regSample ['X']),
            c2) ∧ c2.lookups = [['X']])) :=
  ⟨by decide, registry_lookup_once regSample sampleValue ['X'] (by decide)⟩

/-- C5: a token whose name the context could not resolve (unknown variable
or failed lookup, both cached as absent) is kept literally in the output,
delimiters included, and a string all of whose scanned names are absent is
returned identical to the input. -/
theorem unresolved_token_left_intact (reg : Registry) (s : String) (X : Name)
    (hX : validName X = true) (habs : regValue reg X = none)
    (hall : ∀ n ∈ scanTokens s.data, regValue reg n = none) :
    resolve reg (.vstr s) = .ok (.vstr s) ∧
    (∀ r : List Char, substTokens (regValue reg) (tokenText X ++ r) =
      tokenText X ++ substTokens (regValue reg) r) := by
  constructor
  · rw [resolve_eq_substValue]
    have hid := substTokens_id_of_absent (regValue reg) s.data hall
    simp [substValue, hid]
  · intro r
    rw [substTokens_token _ _ _ hX, habs]

theorem unresolved_token_left_intact_witness :
    validName ['Y'] = true ∧ regValue regSample ['Y'] = none ∧
    resolve regSample (.vstr "$\x7bY\x7d and $\x7bZ\x7d") =
      .ok (.vstr "$\x7bY\x7d and $\x7bZ\x7d") := by
  have hs : ("$\x7bY\x7d and $\x7bZ\x7d" : String).data =
      tokenText ['Y'] ++ (' ' :: 'a' :: 'n' :: 'd' :: ' ' :: (tokenText ['Z'] ++ [])) := by
    decide
  have hall : ∀ n ∈ scanTokens ("$\x7bY\x7d and $\x7bZ\x7d" : String).data,
      regValue regSample n = none := by
    rw [hs, scanTokens_token _ _ (by decide),
      scanTokens_skip _ _ (by decide), scanTokens_skip _ _ (by decide),
      scanTokens_skip _ _ (by decide), scanTokens_skip _ _ (by decide),
      scanTokens_skip _ _ (by decide), scanTokens_token _ _ (by decide), scanTokens_nil]
    intro n hn
    simp only [List.mem_cons, List.not_mem_nil, or_false] at hn
    rcases hn with h | h
    · subst h; decide
    · subst h; decide
  exact ⟨by decide, by decide,
    (unresolved_token_left_intact regSample "$\x7bY\x7d and $\x7bZ\x7d" ['Y']
      (by decide) (by decide) hall).1⟩

/-- C6: on a value of the data model in which no reachable string matches
the token pattern, `doResolve` returns the input itself and the context is
returned exactly as created — its lookup log stays empty, so the registry
is never consulted — and `resolve` returns the input value. -/
theorem no_tokens_value_unchanged (reg : Registry) (v : Value)
    (h1 : Plain v = true) (h2 : tokenFree v = true) :
    doResolve reg v Ctx.empty = .ok (v, Ctx.empty) ∧ resolve reg v = .ok v := by
  have hd := doResolve_id reg v Ctx.empty h1 h2
  exact ⟨hd, by simp only [resolve, hd, exceptBind_ok]⟩

theorem no_tokens_value_unchanged_witness :
    Plain (Value.varr [.vstr "plain", .vnum 7, .vobj [("k", .vstr "$x")]]) = true ∧
    tokenFree (Value.varr [.vstr "plain", .vnum 7, .vobj [("k", .vstr "$x")]]) = true ∧
    (doResolve regSample (Value.varr [.vstr "plain", .vnum 7, .vobj [("k", .vstr "$x")]])
        Ctx.empty =
      .ok (Value.varr [.vstr "plain", .vnum 7, .vobj [("k", .vstr "$x")]], Ctx.empty) ∧
    resolve regSample (Value.varr [.vstr "plain", .vnum 7, .vobj [("k", .vstr "$x")]]) =
      .ok (Value.varr [.vstr "plain", .vnum 7, .vobj [("k", .vstr "$x")]])) := by
  have h1 : Plain (Value.varr [.vstr "plain", .vnum 7, .vobj [("k", .vstr "$x")]]) = true := by
    simp [Plain, PlainList, PlainFields]
  have hsc1 : scanTokens ("plain" : String).data = [] := by
    rw [show ("plain" : String).data = ['p','l','a','i','n'] from by decide,
      scanTokens_skip _ _ (by decide), scanTokens_skip _ _ (by decide),
      scanTokens_skip _ _ (by decide), scanTokens_skip _ _ (by decide),
      scanTokens_skip _ _ (by decide), scanTokens_nil]
  have hsc2 : scanTokens ("$x" : String).data = [] := by
    rw [show ("$x" : String).data = ['$','x'] from by decide,
      scanTokens_skip _ _ (by decide), scanTokens_skip _ _ (by decide), scanTokens_nil]
  have h2 : tokenFree (Value.varr [.vstr "plain", .vnum 7, .vobj [("k", .vstr "$x")]]) = true := by
    simp [tokenFree, tokenFreeList, tokenFreeFields, hsc1, hsc2]
  exact ⟨h1, h2, no_tokens_value_unchanged regSample _ h1 h2⟩

/-- C7: `resolveArray` delegates to the generic `resolve` on the string
array, so its result is exactly the generic result on that sequence; that
result is an array of strings of the same length. -/
theorem resolveArray_refines_resolve (reg : Registry) (vs : List String) :
    resolveArray reg vs = resolve reg (.varr (vs.map Value.vstr)) ∧
    ∃ ss : List String, resolveArray reg vs = .ok (.varr (ss.map Value.vstr)) ∧
      ss.length = vs.length := by
  refine ⟨rfl, vs.map (fun s => String.mk (substTokens (regValue reg) s.data)), ?_, by simp⟩
  rw [resolveArray, resolve_eq_substValue]
  simp [substValue, substValueList_map_vstr]

/-- C8 counterexample: the string holding one token whose name is `a`,
newline, `b` — a name free of the closing brace, which the claim says is
iterated and requested — is scanned to nothing: the regex metacharacter `.`
does not match a line terminator, so the scan finds no token, no name is
ever requested from the context (the final context is the fresh one, lookup
log empty), and the string comes back unchanged even though the registry
resolves every name. -/
theorem newline_name_never_requested :
    ("a\nb" : String).data.all (fun c => c != '\x7d') = true ∧
    scanTokens ("$\x7ba\nb\x7d" : String).data = [] ∧
    doResolveString regAll "$\x7ba\nb\x7d" Ctx.empty =
      .ok ("$\x7ba\nb\x7d", Ctx.empty) := by
  have hsc : scanTokens ("$\x7ba\nb\x7d" : String).data = [] := by
    rw [show ("$\x7ba\nb\x7d" : String).data = ['$','\x7b','a','\n','b','\x7d'] from by decide,
      scanTokens_skip _ _ (by decide), scanTokens_skip _ _ (by decide),
      scanTokens_skip _ _ (by decide), scanTokens_skip _ _ (by decide),
      scanTokens_skip _ _ (by decide), scanTokens_skip _ _ (by decide), scanTokens_nil]
  refine ⟨by decide, hsc, ?_⟩
  have hid := substTokens_id_of_absent
    (fun n => Ctx.get Ctx.empty n) ("$\x7ba\nb\x7d" : String).data (by rw [hsc]; simp)
  simp only [doResolveString, resolveVariables, hsc, resolveVariablesSeq,
    exceptBind_ok, hid]

/-- C8 as amended: a token is a substring matched by the pattern — dollar,
open brace, a non-greedy name, close brace — where the name may be empty
and may contain any characters other than the closing brace and the four
line terminators; every match yields exactly such a decomposition, the scan
phase iterates every such occurrence left to right, and every scanned name
is requested from (and so ends up cached in) the context. -/
theorem token_pattern_scan_amended (n : Name) (r : List Char) (reg : Registry)
    (hv : validName n = true) :
    matchTokenAt (tokenText n ++ r) = some (n, r) ∧
    scanTokens (tokenText n ++ r) = n :: scanTokens r ∧
    (∀ l m q, matchTokenAt l = some (m, q) → l = tokenText m ++ q ∧ validName m = true) ∧
    (∃ c2, resolveVariables reg (String.mk (tokenText n ++ r)) Ctx.empty = .ok c2 ∧
      ∀ m ∈ scanTokens (tokenText n ++ r), (findEntry m c2.resolved).isSome = true) := by
  refine ⟨matchTokenAt_complete n r hv, scanTokens_token n r hv,
    fun l m q h => matchTokenAt_sound l m q h, ?_⟩
  obtain ⟨c2, he, _, _, hall⟩ :=
    resolveVariablesSeq_spec reg (scanTokens (tokenText n ++ r)) Ctx.empty (ctxInv_empty reg)
  exact ⟨c2, he, fun m hm => by rw [hall m hm]; rfl⟩

theorem token_pattern_scan_amended_witness :
    validName ([] : Name) = true ∧
    (matchTokenAt (tokenText [] ++ ['!']) = some ([], ['!']) ∧
      scanTokens (tokenText [] ++ ['!']) = [] :: scanTokens ['!'] ∧
      (∀ l m q, matchTokenAt l = some (m, q) →
        l = tokenText m ++ q ∧ validName m = true) ∧
      (∃ c2, resolveVariables regSample (String.mk (tokenText [] ++ ['!'])) Ctx.empty =
          .ok c2 ∧
        ∀ m ∈ scanTokens (tokenText [] ++ ['!']),
          (findEntry m c2.resolved).isSome = true)) :=
  ⟨by decide, token_pattern_scan_amended [] ['!'] regSample (by decide)⟩

/-- C10: a non-null, non-array value of object type that is not a plain
mapping (a class instance with a class identity and internal state the
traversal cannot see) resolves exactly as the plain object of its own
enumerable string keys does: the result is a fresh plain object whose keys
are those own enumerable keys in order with recursively resolved values,
and the class identity and internal state are gone. -/
theorem class_instance_resolved_as_plain_object (reg : Registry) (cls : String)
    (own : List (String × Value)) (internal : Nat) :
    resolve reg (.vinst cls own internal) = resolve reg (.vobj own) ∧
    ∃ fs, resolve reg (.vinst cls own internal) = .ok (.vobj fs) ∧
      fs.map Prod.fst = own.map Prod.fst := by
  constructor
  · rw [resolve_eq_substValue, resolve_eq_substValue]
    simp [substValue]
  · refine ⟨substValueFields (regValue reg) own, ?_, substValueFields_keys _ _⟩
    rw [resolve_eq_substValue]
    simp [substValue]

end VarResolver
